import Mathlib

/-!
Verification of `ddbtools` (a DuckDB helper library) against its
natural-language specification.

The development shallowly embeds the Python source `ddbtools.py`:

* `Connection.__enter__` / `__exit__` / `regfn` become a small state machine
  over an abstract store of writes (`SessState`, `applyOp`, `sessExit`);
* the three slice iterators `iter_group`, `iter_window`, `iter_chunk` become
  pure functions from an embedded table (a list of rows) to the list of
  slices they yield (plus an event trace recording index DDL and yields);
* `push` becomes a function on an embedded catalog of tables and registered
  views, together with its event trace;
* the `json_wrap` codec becomes an executable JSON encoder/decoder over the
  primitive values the envelope carries.

The SQL engine itself is out of scope in the spec ("assumed correct and
ACID-compliant"); queries issued by the source are embedded by their
documented relational meaning over the table embedding (rows are tuples of
integers, `NULL` does not occur in the model).
-/

namespace DDB

/-! ## Transaction-scoped session (`Connection.__enter__`, `__exit__`, `regfn`)

A write is abstracted to a `Nat` tag.  `committed` is the durable store,
`pending` are the writes of the currently open transaction. -/

/-- One operation performed inside a `Connection` scope: an SQL write inside
the current transaction, or a `regfn` UDF registration. -/
inductive Op where
  | write (w : Nat)
  | regfn
deriving DecidableEq, Repr

/-- Session state: durably committed writes, writes pending in the open
transaction, whether the underlying engine connection is open, and whether a
transaction is open. -/
structure SessState where
  committed : List Nat
  pending : List Nat
  connOpen : Bool
  inTxn : Bool
deriving DecidableEq, Repr

/-- Model of `Connection.__enter__`: open the connection, install the `js`
helper (no effect on the store), begin a transaction. -/
def sessEnter (disk : List Nat) : SessState :=
  { committed := disk, pending := [], connOpen := true, inTxn := true }

/-- One scope operation.  A write goes into the pending transaction.
`Connection.regfn` first commits the current transaction
(`self.conn.commit()`), then `create_function` begins a new one. -/
def applyOp (st : SessState) : Op → SessState
  | .write w => { st with pending := st.pending ++ [w] }
  | .regfn =>
      { st with committed := st.committed ++ st.pending, pending := [], inTxn := true }

/-- Run a list of scope operations from a state. -/
def runOps (st : SessState) : List Op → SessState
  | [] => st
  | op :: rest => runOps (applyOp st op) rest

/-- Model of `Connection.__exit__(exc_type, exc_val, exc_tb)`: on an exception, roll
back the transaction and re-raise the original exception (the connection is
not closed on this path); on success, commit and close. -/
def sessExit (exc : Option Nat) (st : SessState) : Option Nat × SessState :=
  match exc with
  | some e => (some e, { st with pending := [], inTxn := false })
  | none =>
      (none, { st with committed := st.committed ++ st.pending, pending := [],
                       inTxn := false, connOpen := false })

/-- Whether the operation list contains a `regfn` call. -/
def hasRegfn : List Op → Bool
  | [] => false
  | .regfn :: _ => true
  | .write _ :: rest => hasRegfn rest

/-- The writes of the operation list that occur strictly before some later
`regfn` call — exactly the writes `regfn` durably commits. -/
def committedBeforeRegfn : List Op → List Nat
  | [] => []
  | .write w :: rest =>
      if hasRegfn rest then w :: committedBeforeRegfn rest else committedBeforeRegfn rest
  | .regfn :: rest => committedBeforeRegfn rest

theorem committedBeforeRegfn_eq_nil_of_not_hasRegfn :
    ∀ ops : List Op, hasRegfn ops = false → committedBeforeRegfn ops = [] := by
  intro ops h
  induction ops with
  | nil => rfl
  | cons op rest ih =>
    cases op with
    | write w =>
      simp only [hasRegfn] at h
      simp [committedBeforeRegfn, h, ih h]
    | regfn => simp [hasRegfn] at h

theorem runOps_committed (ops : List Op) :
    ∀ c p o t, (runOps ⟨c, p, o, t⟩ ops).committed =
      if hasRegfn ops then c ++ p ++ committedBeforeRegfn ops else c := by
  induction ops with
  | nil => intro c p o t; simp [runOps, hasRegfn]
  | cons op rest ih =>
    intro c p o t
    cases op with
    | write w =>
      simp only [runOps, applyOp]
      rw [ih]
      by_cases h : hasRegfn rest = true
      · simp [hasRegfn, h, committedBeforeRegfn]
      · simp only [Bool.not_eq_true] at h
        simp [hasRegfn, h, committedBeforeRegfn]
    | regfn =>
      simp only [runOps, applyOp]
      rw [ih]
      by_cases h : hasRegfn rest = true
      · simp [hasRegfn, h, committedBeforeRegfn]
      · simp only [Bool.not_eq_true] at h
        simp [hasRegfn, h, committedBeforeRegfn,
              committedBeforeRegfn_eq_nil_of_not_hasRegfn rest h]

theorem runOps_connOpen (ops : List Op) :
    ∀ st : SessState, (runOps st ops).connOpen = st.connOpen := by
  induction ops with
  | nil => intro st; rfl
  | cons op rest ih =>
    intro st
    cases op with
    | write w => simpa [runOps, applyOp] using ih _
    | regfn => simpa [runOps, applyOp] using ih _

theorem hasRegfn_iff (ops : List Op) :
    hasRegfn ops = true ↔ ∃ j : Nat, ops[j]? = some Op.regfn := by
  induction ops with
  | nil => simp [hasRegfn]
  | cons op rest ih =>
    cases op with
    | write w =>
      simp only [hasRegfn, ih]
      constructor
      · rintro ⟨j, hj⟩; exact ⟨j + 1, by simpa using hj⟩
      · rintro ⟨j, hj⟩
        cases j with
        | zero => simp at hj
        | succ j => exact ⟨j, by simpa using hj⟩
    | regfn =>
      simp only [hasRegfn, true_iff]
      exact ⟨0, by simp⟩

theorem mem_committedBeforeRegfn_iff (ops : List Op) (w : Nat) :
    w ∈ committedBeforeRegfn ops ↔
      ∃ i j : Nat, i < j ∧ ops[i]? = some (Op.write w) ∧ ops[j]? = some Op.regfn := by
  induction ops with
  | nil => simp [committedBeforeRegfn]
  | cons op rest ih =>
    cases op with
    | write w' =>
      by_cases h : hasRegfn rest = true
      · simp only [committedBeforeRegfn, h, if_true, List.mem_cons, ih]
        constructor
        · rintro (rfl | ⟨i, j, hij, hi, hj⟩)
          · obtain ⟨j, hj⟩ := (hasRegfn_iff rest).mp h
            exact ⟨0, j + 1, Nat.succ_pos j, by simp, by simpa using hj⟩
          · exact ⟨i + 1, j + 1, by omega, by simpa using hi, by simpa using hj⟩
        · rintro ⟨i, j, hij, hi, hj⟩
          cases i with
          | zero =>
            left
            simp only [List.getElem?_cons_zero, Option.some.injEq] at hi
            exact (Op.write.injEq _ _).mp hi.symm
          | succ i =>
            right
            cases j with
            | zero => omega
            | succ j =>
              exact ⟨i, j, by omega, by simpa using hi, by simpa using hj⟩
      · simp only [Bool.not_eq_true] at h
        rw [show committedBeforeRegfn (Op.write w' :: rest)
              = committedBeforeRegfn rest by simp [committedBeforeRegfn, h]]
        rw [ih]
        constructor
        · rintro ⟨i, j, hij, hi, hj⟩
          exact ⟨i + 1, j + 1, by omega, by simpa using hi, by simpa using hj⟩
        · rintro ⟨i, j, hij, hi, hj⟩
          cases j with
          | zero => simp at hj
          | succ j =>
            cases i with
            | zero =>
              exfalso
              have : hasRegfn rest = true :=
                (hasRegfn_iff rest).mpr ⟨j, by simpa using hj⟩
              simp [this] at h
            | succ i =>
              exact ⟨i, j, by omega, by simpa using hi, by simpa using hj⟩
    | regfn =>
      simp only [committedBeforeRegfn, ih]
      constructor
      · rintro ⟨i, j, hij, hi, hj⟩
        exact ⟨i + 1, j + 1, by omega, by simpa using hi, by simpa using hj⟩
      · rintro ⟨i, j, hij, hi, hj⟩
        cases i with
        | zero => simp at hi
        | succ i =>
          cases j with
          | zero => omega
          | succ j =>
            exact ⟨i, j, by omega, by simpa using hi, by simpa using hj⟩

/-- C1: exiting a failing scope re-raises the original exception and leaves
durable exactly the writes performed strictly before a `regfn` call. -/
theorem session_failed_scope_atomic (disk : List Nat) (ops : List Op) (e : Nat) :
    (sessExit (some e) (runOps (sessEnter disk) ops)).fst = some e ∧
    (sessExit (some e) (runOps (sessEnter disk) ops)).snd.committed
      = disk ++ committedBeforeRegfn ops ∧
    (∀ w, w ∈ committedBeforeRegfn ops ↔
      ∃ i j : Nat, i < j ∧ ops[i]? = some (Op.write w) ∧ ops[j]? = some Op.regfn) := by
  refine ⟨rfl, ?_, fun w => mem_committedBeforeRegfn_iff ops w⟩
  show (runOps (sessEnter disk) ops).committed = disk ++ committedBeforeRegfn ops
  rw [sessEnter, runOps_committed]
  by_cases h : hasRegfn ops = true
  · simp [h]
  · simp only [Bool.not_eq_true] at h
    simp [h, committedBeforeRegfn_eq_nil_of_not_hasRegfn ops h]

/-- C7 counterexample: after a scope that raises, `__exit__` rolls back and
re-raises but does not close the connection, so the claim "on every exit of a
Session scope the underlying connection is closed" fails on the exception
path at this concrete input. -/
theorem session_exception_exit_not_closed_cex :
    ¬ ((sessExit (some 0) (runOps (sessEnter []) [Op.write 1])).snd.connOpen
        = false) := by
  decide

/-- C7 (amended): a successful exit commits the pending writes and closes the
connection; an exit caused by an exception rolls back (discards the pending
writes), re-raises the original exception, and leaves the connection open
(not closed). -/
theorem session_exit_lifecycle (disk : List Nat) (ops : List Op) (e : Nat) :
    (sessExit none (runOps (sessEnter disk) ops)).snd.connOpen = false ∧
    (sessExit none (runOps (sessEnter disk) ops)).snd.committed
      = (runOps (sessEnter disk) ops).committed
        ++ (runOps (sessEnter disk) ops).pending ∧
    (sessExit (some e) (runOps (sessEnter disk) ops)).fst = some e ∧
    (sessExit (some e) (runOps (sessEnter disk) ops)).snd.pending = [] ∧
    (sessExit (some e) (runOps (sessEnter disk) ops)).snd.committed
      = (runOps (sessEnter disk) ops).committed ∧
    (sessExit (some e) (runOps (sessEnter disk) ops)).snd.connOpen = true := by
  refine ⟨rfl, rfl, rfl, rfl, rfl, ?_⟩
  show (runOps (sessEnter disk) ops).connOpen = true
  rw [runOps_connOpen]
  rfl

/-! ## A structural sort

`ORDER BY` clauses are embedded as a sort by a Boolean comparator.  The sort
is structurally recursive so that it reduces inside the kernel on concrete
inputs. -/

/-- Insert `x` into `l` before the first element `y` with `le x y`. -/
def insertLe {α : Type} (le : α → α → Bool) (x : α) : List α → List α
  | [] => [x]
  | y :: ys => if le x y then x :: y :: ys else y :: insertLe le x ys

/-- Insertion sort by a Boolean comparator. -/
def sortLe {α : Type} (le : α → α → Bool) : List α → List α
  | [] => []
  | x :: xs => insertLe le x (sortLe le xs)

theorem insertLe_perm {α : Type} (le : α → α → Bool) (x : α) :
    ∀ l : List α, List.Perm (insertLe le x l) (x :: l) := by
  intro l
  induction l with
  | nil => exact List.Perm.refl _
  | cons y ys ih =>
    rw [insertLe]
    by_cases h : le x y = true
    · rw [if_pos h]
    · rw [if_neg h]
      exact (ih.cons y).trans (List.Perm.swap x y ys)

theorem sortLe_perm {α : Type} (le : α → α → Bool) :
    ∀ l : List α, List.Perm (sortLe le l) l := by
  intro l
  induction l with
  | nil => exact List.Perm.refl _
  | cons x xs ih => exact (insertLe_perm le x (sortLe le xs)).trans (ih.cons x)

theorem mem_sortLe {α : Type} (le : α → α → Bool) (l : List α) (a : α) :
    a ∈ sortLe le l ↔ a ∈ l :=
  (sortLe_perm le l).mem_iff

theorem insertLe_pairwise {α : Type} (le : α → α → Bool)
    (total : ∀ a b, le a b || le b a)
    (htrans : ∀ a b c, le a b = true → le b c = true → le a c = true) (x : α) :
    ∀ l : List α, List.Pairwise (fun a b => le a b = true) l →
      List.Pairwise (fun a b => le a b = true) (insertLe le x l) := by
  intro l
  induction l with
  | nil => intro _; simp [insertLe]
  | cons y ys ih =>
    intro hp
    rw [List.pairwise_cons] at hp
    rw [insertLe]
    by_cases h : le x y = true
    · rw [if_pos h]
      rw [List.pairwise_cons]
      refine ⟨?_, List.pairwise_cons.mpr hp⟩
      intro z hz
      rcases List.mem_cons.mp hz with rfl | hz
      · exact h
      · exact htrans x y z h (hp.1 z hz)
    · rw [if_neg h]
      rw [List.pairwise_cons]
      have hyx : le y x = true := by
        have := total x y
        rw [Bool.or_eq_true] at this
        rcases this with h1 | h1
        · exact absurd h1 h
        · exact h1
      refine ⟨?_, ih hp.2⟩
      intro z hz
      have hz' := (insertLe_perm le x ys).mem_iff.mp hz
      rcases List.mem_cons.mp hz' with rfl | hz'
      · exact hyx
      · exact hp.1 z hz'

theorem sortLe_pairwise {α : Type} (le : α → α → Bool)
    (total : ∀ a b, le a b || le b a)
    (htrans : ∀ a b c, le a b = true → le b c = true → le a c = true) :
    ∀ l : List α, List.Pairwise (fun a b => le a b = true) (sortLe le l) := by
  intro l
  induction l with
  | nil => simp [sortLe]
  | cons x xs ih => exact insertLe_pairwise le total htrans x (sortLe le xs) ih

/-! ## Table embedding

A row is the tuple of its column values (SQL `NULL` does not occur in the
model); a column reference is a position into that tuple.  `colVal` is total
with default `0`; every claim only involves valid column references. -/

/-- A row: the tuple of its column values. -/
abbrev Row := List Int

/-- Value of column `i` in row `r`. -/
def colVal (r : Row) (i : Nat) : Int := List.getD r i 0

/-- The group key of a row for a column list (`SELECT DISTINCT cols`). -/
def key (cols : List Nat) (r : Row) : List Int := cols.map (colVal r)

/-- Strict lexicographic order on key tuples, the order of
`ORDER BY col1, col2, ...` on distinct tuples. -/
def lexLt : List Int → List Int → Bool
  | [], [] => false
  | [], _ :: _ => true
  | _ :: _, [] => false
  | a :: as, b :: bs => decide (a < b) || (decide (a = b) && lexLt as bs)

/-- Reflexive lexicographic order (used as the sort comparator). -/
def lexLe (x y : List Int) : Bool := !lexLt y x

theorem lexLt_irrefl : ∀ x, lexLt x x = false := by
  intro x
  induction x with
  | nil => rfl
  | cons a as ih => simp [lexLt, ih]

theorem lexLt_trans :
    ∀ x y z, lexLt x y = true → lexLt y z = true → lexLt x z = true := by
  intro x
  induction x with
  | nil =>
    intro y z hxy hyz
    cases y with
    | nil => simp [lexLt] at hxy
    | cons b bs =>
      cases z with
      | nil => simp [lexLt] at hyz
      | cons c cs => simp [lexLt]
  | cons a as ih =>
    intro y z hxy hyz
    cases y with
    | nil => simp [lexLt] at hxy
    | cons b bs =>
      cases z with
      | nil => simp [lexLt] at hyz
      | cons c cs =>
        simp only [lexLt, Bool.or_eq_true, Bool.and_eq_true, decide_eq_true_eq]
          at hxy hyz ⊢
        rcases hxy with h1 | ⟨rfl, h1⟩ <;> rcases hyz with h2 | ⟨rfl, h2⟩
        · exact Or.inl (lt_trans h1 h2)
        · exact Or.inl h1
        · exact Or.inl h2
        · exact Or.inr ⟨rfl, ih bs cs h1 h2⟩

theorem lexLt_connex :
    ∀ x y, lexLt x y = false → lexLt y x = false → x = y := by
  intro x
  induction x with
  | nil =>
    intro y hxy _
    cases y with
    | nil => rfl
    | cons b bs => simp [lexLt] at hxy
  | cons a as ih =>
    intro y hxy hyx
    cases y with
    | nil => simp [lexLt] at hyx
    | cons b bs =>
      simp only [lexLt, Bool.or_eq_false_iff, Bool.and_eq_false_iff,
        decide_eq_false_iff_not] at hxy hyx
      obtain ⟨h1, h2⟩ := hxy
      obtain ⟨h3, h4⟩ := hyx
      have hab : a = b := le_antisymm (not_lt.mp h3) (not_lt.mp h1)
      subst hab
      rcases h2 with h2 | h2
      · exact absurd rfl h2
      · rcases h4 with h4 | h4
        · exact absurd rfl h4
        · rw [ih bs (by simpa using h2) (by simpa using h4)]

theorem lexLt_asymm :
    ∀ x y, lexLt x y = true → lexLt y x = false := by
  intro x y hxy
  by_contra h
  rw [Bool.not_eq_false] at h
  have := lexLt_trans x y x hxy h
  rw [lexLt_irrefl] at this
  exact Bool.false_ne_true this

theorem lexLe_total : ∀ x y, lexLe x y || lexLe y x := by
  intro x y
  rw [lexLe, lexLe]
  cases h : lexLt y x
  · simp
  · simp [lexLt_asymm y x h]

theorem lexLe_trans :
    ∀ x y z, lexLe x y → lexLe y z → lexLe x z := by
  intro x y z hxy hyz
  rw [lexLe, Bool.not_eq_true'] at hxy hyz ⊢
  by_contra h
  rw [Bool.not_eq_false] at h
  rcases Bool.eq_false_or_eq_true (lexLt x y) with h1 | h1
  · have := lexLt_trans z x y h h1
    rw [hyz] at this
    exact Bool.false_ne_true this
  · have hxy' := lexLt_connex x y h1 hxy
    subst hxy'
    rw [hyz] at h
    exact Bool.false_ne_true h

/-! ## Group iterator (`Connection.iter_group`)

`SELECT DISTINCT cols FROM t ORDER BY cols` is embedded as sorting the
deduplicated key tuples; each group slice is
`SELECT * FROM t WHERE col1 = k1 AND col2 = k2 AND ...`. -/

/-- The enumeration domain of `iter_group`: the distinct key tuples present
in the table, in ascending lexicographic order. -/
def sortedKeys (t : List Row) (cols : List Nat) : List (List Int) :=
  sortLe lexLe ((t.map (key cols)).dedup)

/-- Model of `Connection.iter_group(table_name, columns)`: one slice per distinct key
tuple, each slice the rows matching that key tuple exactly. -/
def iter_group (t : List Row) (cols : List Nat) : List (List Row) :=
  (sortedKeys t cols).map (fun k => t.filter (fun r => key cols r == k))

theorem sortedKeys_mem (t : List Row) (cols : List Nat) (k : List Int) :
    k ∈ sortedKeys t cols ↔ k ∈ t.map (key cols) := by
  rw [sortedKeys, mem_sortLe, List.mem_dedup]

theorem sortedKeys_pairwise_lt (t : List Row) (cols : List Nat) :
    List.Pairwise (fun k1 k2 => lexLt k1 k2 = true) (sortedKeys t cols) := by
  have hsorted : List.Pairwise (fun k1 k2 => lexLe k1 k2 = true)
      (sortedKeys t cols) :=
    sortLe_pairwise lexLe (fun a b => lexLe_total a b)
      (fun a b c => lexLe_trans a b c) _
  have hnodup : (sortedKeys t cols).Nodup :=
    (sortLe_perm lexLe _).symm.nodup (List.nodup_dedup _)
  refine (hsorted.and hnodup).imp ?_
  rintro a b ⟨hle, hne⟩
  rw [lexLe, Bool.not_eq_true'] at hle
  rcases Bool.eq_false_or_eq_true (lexLt a b) with h | h
  · exact h
  · exact absurd (lexLt_connex a b h hle) hne

/-- C2: for every table and column list, `iter_group` yields one slice per
distinct key tuple present, in ascending lexicographic key order; the slices
are pairwise disjoint and nonempty, and their union as a set of rows is the
whole table. -/
theorem iter_group_exhaustive (t : List Row) (cols : List Nat) :
    iter_group t cols
      = (sortedKeys t cols).map (fun k => t.filter (fun r => key cols r == k)) ∧
    (∀ k, k ∈ sortedKeys t cols ↔ k ∈ t.map (key cols)) ∧
    List.Pairwise (fun k1 k2 => lexLt k1 k2 = true) (sortedKeys t cols) ∧
    (∀ s ∈ iter_group t cols, s ≠ []) ∧
    List.Pairwise (fun s1 s2 => ∀ r, r ∈ s1 → r ∉ s2) (iter_group t cols) ∧
    (∀ r : Row, (∃ s ∈ iter_group t cols, r ∈ s) ↔ r ∈ t) := by
  refine ⟨rfl, fun k => sortedKeys_mem t cols k, sortedKeys_pairwise_lt t cols,
    ?_, ?_, ?_⟩
  · intro s hs
    rw [iter_group, List.mem_map] at hs
    obtain ⟨k, hk, rfl⟩ := hs
    rw [sortedKeys_mem, List.mem_map] at hk
    obtain ⟨r, hr, hkey⟩ := hk
    intro hnil
    have : r ∈ t.filter (fun r' => key cols r' == k) :=
      List.mem_filter.mpr ⟨hr, by simp [hkey]⟩
    rw [hnil] at this
    exact List.not_mem_nil r this
  · rw [iter_group, List.pairwise_map]
    refine (sortedKeys_pairwise_lt t cols).imp ?_
    intro k1 k2 hlt r hr1 hr2
    rw [List.mem_filter] at hr1 hr2
    have e1 : key cols r = k1 := by simpa using hr1.2
    have e2 : key cols r = k2 := by simpa using hr2.2
    rw [e1] at e2
    subst e2
    rw [lexLt_irrefl] at hlt
    exact Bool.false_ne_true hlt
  · intro r
    constructor
    · rintro ⟨s, hs, hr⟩
      rw [iter_group, List.mem_map] at hs
      obtain ⟨k, _, rfl⟩ := hs
      exact (List.mem_filter.mp hr).1
    · intro hr
      refine ⟨t.filter (fun r' => key cols r' == key cols r), ?_, ?_⟩
      · rw [iter_group, List.mem_map]
        exact ⟨key cols r, (sortedKeys_mem t cols _).mpr
          (List.mem_map.mpr ⟨r, hr, rfl⟩), rfl⟩
      · exact List.mem_filter.mpr ⟨hr, by simp⟩

/-! ## Window-start enumeration

The `while current_start <= end` loops of `iter_window` and `iter_chunk`,
embedded with explicit fuel so the function is structurally recursive.  For a
positive step the fuel `(e + 1 - s).toNat` is at least the number of loop
iterations, so the fuel never runs out; a non-positive step makes the Python
loop diverge, which the embedding does not model (every theorem assumes
`0 < T`). -/

/-- Loop with fuel: emit `s` and step by `T` while `s ≤ e`. -/
def windowStartsFuel : Nat → Int → Int → Int → List Int
  | 0, _, _, _ => []
  | fuel + 1, s, e, T => if s ≤ e then s :: windowStartsFuel fuel (s + T) e T else []

/-- The sequence of `current_start` values of the iterator loops. -/
def windowStarts (s e T : Int) : List Int :=
  windowStartsFuel (e + 1 - s).toNat s e T

theorem windowStartsFuel_closed (T : Int) (hT : 0 < T) :
    ∀ (fuel : Nat) (s e : Int), (e + 1 - s).toNat ≤ fuel →
      windowStartsFuel fuel s e T
        = (List.range (windowStartsFuel fuel s e T).length).map
            (fun k : Nat => s + (k : Int) * T) := by
  intro fuel
  induction fuel with
  | zero =>
    intro s e _
    simp [windowStartsFuel]
  | succ fuel ih =>
    intro s e hfuel
    by_cases hse : s ≤ e
    · have hfuel' : (e + 1 - (s + T)).toNat ≤ fuel := by omega
      have htail := ih (s + T) e hfuel'
      have hlen : (windowStartsFuel (fuel + 1) s e T).length
          = (windowStartsFuel fuel (s + T) e T).length + 1 := by
        simp [windowStartsFuel, hse]
      rw [hlen, List.range_succ_eq_map, List.map_cons, List.map_map]
      rw [show windowStartsFuel (fuel + 1) s e T
            = s :: windowStartsFuel fuel (s + T) e T by
          simp [windowStartsFuel, hse]]
      congr 1
      · simp
      · conv_lhs => rw [htail]
        refine List.map_congr_left fun k _ => ?_
        simp only [Function.comp_apply]
        push_cast
        ring
    · simp [windowStartsFuel, hse]

theorem windowStartsFuel_end_lt (T : Int) (hT : 0 < T) :
    ∀ (fuel : Nat) (s e : Int), (e + 1 - s).toNat ≤ fuel →
      e < s + (windowStartsFuel fuel s e T).length * T := by
  intro fuel
  induction fuel with
  | zero =>
    intro s e hfuel
    simp only [windowStartsFuel, List.length_nil, Nat.cast_zero, zero_mul,
      add_zero]
    omega
  | succ fuel ih =>
    intro s e hfuel
    by_cases hse : s ≤ e
    · have hfuel' : (e + 1 - (s + T)).toNat ≤ fuel := by omega
      have htail := ih (s + T) e hfuel'
      simp only [windowStartsFuel, hse, if_true, List.length_cons]
      have hc : ((windowStartsFuel fuel (s + T) e T).length + 1 : ℕ) * (T : ℤ)
          = (windowStartsFuel fuel (s + T) e T).length * T + T := by
        push_cast
        ring
      rw [hc]
      linarith
    · simp only [windowStartsFuel, hse, if_false, List.length_nil,
        Nat.cast_zero, zero_mul, add_zero]
      omega

theorem windowStarts_closed (s e T : Int) (hT : 0 < T) :
    windowStarts s e T
      = (List.range (windowStarts s e T).length).map (fun k : Nat => s + (k : Int) * T) :=
  windowStartsFuel_closed T hT _ s e le_rfl

theorem windowStarts_end_lt (s e T : Int) (hT : 0 < T) :
    e < s + (windowStarts s e T).length * T :=
  windowStartsFuel_end_lt T hT _ s e le_rfl

theorem windowStarts_nonempty (s e T : Int) (hT : 0 < T) (hse : s ≤ e) :
    (windowStarts s e T).length ≠ 0 := by
  intro h
  have := windowStarts_end_lt s e T hT
  rw [h] at this
  simp at this
  omega

theorem mem_windowStarts (s e T : Int) (hT : 0 < T) (c : Int) :
    c ∈ windowStarts s e T ↔
      ∃ k : Nat, k < (windowStarts s e T).length ∧ c = s + k * T := by
  conv_lhs => rw [windowStarts_closed s e T hT]
  rw [List.mem_map]
  constructor
  · rintro ⟨k, hk, rfl⟩
    exact ⟨k, List.mem_range.mp hk, rfl⟩
  · rintro ⟨k, hk, rfl⟩
    exact ⟨k, List.mem_range.mpr hk, rfl⟩

theorem windowStarts_cover (s e T : Int) (hT : 0 < T) (v : Int)
    (hv1 : s ≤ v) (hv2 : v < s + (windowStarts s e T).length * T) :
    ∃ c ∈ windowStarts s e T, c ≤ v ∧ v < c + T := by
  have hdiv := Int.ediv_add_emod (v - s) T
  have hmod1 := Int.emod_nonneg (v - s) (ne_of_gt hT)
  have hmod2 := Int.emod_lt_of_pos (v - s) hT
  have hq0 : 0 ≤ (v - s) / T := Int.ediv_nonneg (by omega) (le_of_lt hT)
  set q := (v - s) / T with hqdef
  set m := (v - s) % T with hmdef
  have hqk : ((q.toNat : Int)) = q := Int.toNat_of_nonneg hq0
  refine ⟨s + q.toNat * T, ?_, ?_, ?_⟩
  · rw [mem_windowStarts s e T hT]
    refine ⟨q.toNat, ?_, rfl⟩
    by_contra hk
    push_neg at hk
    have hmul : ((windowStarts s e T).length : Int) * T ≤ (q.toNat : Int) * T :=
      mul_le_mul_of_nonneg_right (by exact_mod_cast hk) (le_of_lt hT)
    rw [hqk] at hmul
    nlinarith [hdiv, hmod1, hmod2]
  · rw [hqk]
    nlinarith [hdiv, hmod1, hmod2]
  · rw [hqk]
    nlinarith [hdiv, hmod1, hmod2]

theorem windowStarts_pairwise_step (s e T : Int) (hT : 0 < T) :
    List.Pairwise (fun c1 c2 => c1 + T ≤ c2) (windowStarts s e T) := by
  rw [windowStarts_closed s e T hT]
  rw [List.pairwise_map]
  refine (List.pairwise_lt_range _).imp ?_
  intro k1 k2 hk
  have : ((k1 : Int) + 1) * T ≤ (k2 : Int) * T :=
    mul_le_mul_of_nonneg_right (by exact_mod_cast hk) (le_of_lt hT)
  linarith

theorem windowStarts_window_sub (s e T : Int) (hT : 0 < T) (c : Int)
    (hc : c ∈ windowStarts s e T) (v : Int) (hv1 : c ≤ v) (hv2 : v < c + T) :
    s ≤ v ∧ v < s + (windowStarts s e T).length * T := by
  rw [mem_windowStarts s e T hT] at hc
  obtain ⟨k, hk, rfl⟩ := hc
  have h1 : (0 : Int) ≤ (k : Int) * T :=
    mul_nonneg (Int.natCast_nonneg k) (le_of_lt hT)
  have h2 : ((k : Int) + 1) * T ≤ ((windowStarts s e T).length : Int) * T :=
    mul_le_mul_of_nonneg_right (by exact_mod_cast hk) (le_of_lt hT)
  constructor
  · linarith
  · linarith

/-! ## Window iterator (`Connection.iter_window`)

Optional arguments are `Option Int` (`none` is Python `None`).  DuckDB's
`MIN`/`MAX` over an empty table return `NULL`, i.e. `none`; using such a
value in `current_start + window_size` or `current_start <= end` raises a
Python `TypeError`. -/

/-- A Python-level error surfaced by the iterator body. -/
inductive PyErr where
  | typeError
deriving DecidableEq, Repr

/-- Python `a or b` on an optional number: `None` and `0` are falsy. -/
def pyOr (a b : Option Int) : Option Int :=
  match a with
  | some v => if v = 0 then b else some v
  | none => b

/-- Embedding of `ORDER BY` on column `i`, ascending. -/
def sortByCol (i : Nat) (rows : List Row) : List Row :=
  sortLe (fun a b => decide (colVal a i ≤ colVal b i)) rows

/-- Model of `Connection.iter_window(table_name, refcol, window_size, step_size,
start, end)`.  `if not step_size: step_size = window_size` makes a `None` or
`0` step fall back to the window size; `start or table_start` and
`end or table_end` make falsy bounds fall back to `MIN(refcol)` /
`MAX(refcol)`.  Each slice is
`SELECT * WHERE refcol >= cs AND refcol < cs + window_size ORDER BY refcol`. -/
def iter_window (t : List Row) (rc : Nat) (windowSize : Int)
    (stepSize start stop : Option Int) : Except PyErr (List (List Row)) :=
  let T : Int :=
    match stepSize with
    | some v => if v = 0 then windowSize else v
    | none => windowSize
  let tmin := (t.map (fun r => colVal r rc)).min?
  let tmax := (t.map (fun r => colVal r rc)).max?
  match pyOr start tmin with
  | none => .error .typeError
  | some s =>
    match pyOr stop tmax with
    | none => .error .typeError
    | some e =>
      .ok ((windowStarts s e T).map (fun c =>
        sortByCol rc (t.filter (fun r =>
          decide (c ≤ colVal r rc) && decide (colVal r rc < c + windowSize)))))

/-! ## Chunk iterator (`Connection.iter_chunk`)

A chunk-table row carries DuckDB's intrinsic `rowid` alongside its column
values. -/

/-- A row of a physical table: its intrinsic `rowid` plus its column
values. -/
structure CRow where
  rid : Int
  vals : List Int
deriving DecidableEq, Repr

/-- Embedding of `ORDER BY rowid`, ascending. -/
def sortByRid (rows : List CRow) : List CRow :=
  sortLe (fun a b => decide (a.rid ≤ b.rid)) rows

/-- Model of `Connection.iter_chunk(table_name, chunk_size)`: `MIN(rowid)` /
`MAX(rowid)` bound the loop; each slice is
`SELECT * WHERE rowid >= cs AND rowid < cs + chunk_size ORDER BY rowid`.
No ephemeral index is involved.  On an empty table `MIN`/`MAX` are `NULL`
and `current_start + chunk_size` raises a `TypeError`. -/
def iter_chunk (t : List CRow) (chunkSize : Int) :
    Except PyErr (List (List CRow)) :=
  match (t.map CRow.rid).min?, (t.map CRow.rid).max? with
  | some s, some e =>
      .ok ((windowStarts s e chunkSize).map (fun c =>
        sortByRid (t.filter (fun r =>
          decide (c ≤ r.rid) && decide (r.rid < c + chunkSize)))))
  | _, _ => .error .typeError

theorem int_min?_spec (l : List Int) (m : Int) (h : l.min? = some m) :
    m ∈ l ∧ ∀ b ∈ l, m ≤ b := by
  refine ⟨List.min?_mem (fun a b => min_choice a b) h, ?_⟩
  intro b hb
  exact (List.le_min?_iff (fun a b c => le_min_iff) h).mp le_rfl b hb

theorem int_max?_spec (l : List Int) (m : Int) (h : l.max? = some m) :
    m ∈ l ∧ ∀ b ∈ l, b ≤ m := by
  refine ⟨List.max?_mem (fun a b => max_choice a b) h, ?_⟩
  intro b hb
  exact (List.max?_le_iff (fun a b c => max_le_iff) h).mp le_rfl b hb

/-- C10: because `iter_window` selects its defaults with truthiness tests
(`if not step_size`, `start or table_start`, `end or table_end`), a supplied
`step_size`, `start` or `end` equal to `0` behaves exactly as if the argument
had not been supplied. -/
theorem iter_window_truthy_defaults (t : List Row) (rc : Nat) (S : Int)
    (stepSize start stop : Option Int) :
    iter_window t rc S (some 0) start stop = iter_window t rc S none start stop ∧
    iter_window t rc S stepSize (some 0) stop
      = iter_window t rc S stepSize none stop ∧
    iter_window t rc S stepSize start (some 0)
      = iter_window t rc S stepSize start none := by
  refine ⟨by simp [iter_window, pyOr], by simp [iter_window, pyOr],
    by simp [iter_window, pyOr]⟩

/-- C9: on an empty table `MIN`/`MAX` come back as `NULL` (`none`), so the
chunk iterator always raises a `TypeError`, and the window iterator raises a
`TypeError` whenever `start` or `end` is not supplied (no slices are
yielded). -/
theorem iter_empty_raises (ch : Int) (rc : Nat) (S : Int)
    (stepSize start stop : Option Int) :
    iter_chunk ([] : List CRow) ch = .error .typeError ∧
    iter_window ([] : List Row) rc S stepSize none stop = .error .typeError ∧
    iter_window ([] : List Row) rc S stepSize start none = .error .typeError := by
  refine ⟨rfl, rfl, ?_⟩
  cases start with
  | none => rfl
  | some v =>
    by_cases hv : v = 0
    · subst hv
      simp [iter_window, pyOr]
    · simp [iter_window, pyOr, hv]

/-- C3 counterexample: with table `{[2], [11]}`, reference column `0`,
window size = step = `4`, `start = 1`, `end = 10`, the row `[11]` appears in
a yielded slice (the last window is `[9, 13)`) although its reference value
`11` is not in `[start, end) = [1, 10)`; so with `T = S` the union of the
yielded slices is strictly larger than the set of in-range rows. -/
theorem iter_window_union_cex :
    ¬ (∀ sls, iter_window [[(2 : Int)], [(11 : Int)]] 0 4 (some 4) (some 1)
          (some 10) = Except.ok sls →
        ∀ r : Row, (∃ sl ∈ sls, r ∈ sl) ↔
          (r ∈ [[(2 : Int)], [(11 : Int)]] ∧ 1 ≤ colVal r 0 ∧ colVal r 0 < 10)) := by
  intro h
  have hiter : iter_window [[(2 : Int)], [(11 : Int)]] 0 4 (some 4) (some 1)
      (some 10) = Except.ok [[[2]], [], [[11]]] := by rfl
  have h2 := (h _ hiter [(11 : Int)]).mp ⟨[[11]], by simp, by simp⟩
  have h3 : (11 : Int) < 10 := h2.2.2
  omega

/-- C3 (amended): for window size `S`, positive step `T ≤ S` and truthy
explicit bounds `start`, `end`, the window iterator yields one slice per
window tick (including empty slices) and every row with reference value in
`[start, end)` appears in at least one slice; when `T = S` the slices are
pairwise disjoint and their union is exactly the rows with reference value
in `[start, start + n·S)` where `n` is the number of yielded slices — a
superset of the in-range rows that may also contain rows with reference
value in `[end, start + n·S)`. -/
theorem iter_window_exhaustive (t : List Row) (rc : Nat) (S T s e : Int)
    (hT : 0 < T) (hTS : T ≤ S) (hs : s ≠ 0) (he : e ≠ 0) :
    ∃ sls, iter_window t rc S (some T) (some s) (some e) = .ok sls ∧
      sls.length = (windowStarts s e T).length ∧
      (∀ r ∈ t, s ≤ colVal r rc → colVal r rc < e → ∃ sl ∈ sls, r ∈ sl) ∧
      (T = S →
        List.Pairwise (fun s1 s2 => ∀ r, r ∈ s1 → r ∉ s2) sls ∧
        (∀ r : Row, (∃ sl ∈ sls, r ∈ sl) ↔
          (r ∈ t ∧ s ≤ colVal r rc ∧ colVal r rc < s + sls.length * S))) := by
  have hT0 : T ≠ 0 := ne_of_gt hT
  have hiter : iter_window t rc S (some T) (some s) (some e)
      = .ok ((windowStarts s e T).map (fun c =>
          sortByCol rc (t.filter (fun r =>
            decide (c ≤ colVal r rc) && decide (colVal r rc < c + S))))) := by
    simp [iter_window, pyOr, hT0, hs, he]
  refine ⟨_, hiter, by simp, ?_, ?_⟩
  · intro r hr h1 h2
    have hend := windowStarts_end_lt s e T hT
    obtain ⟨c, hc, hcv1, hcv2⟩ :=
      windowStarts_cover s e T hT (colVal r rc) h1 (by linarith)
    refine ⟨_, List.mem_map.mpr ⟨c, hc, rfl⟩, ?_⟩
    rw [sortByCol, mem_sortLe]
    refine List.mem_filter.mpr ⟨hr, ?_⟩
    simp only [Bool.and_eq_true, decide_eq_true_eq]
    exact ⟨hcv1, by linarith⟩
  · rintro rfl
    constructor
    · rw [List.pairwise_map]
      refine (windowStarts_pairwise_step s e T hT).imp ?_
      intro c1 c2 hstep r hr1 hr2
      rw [sortByCol, mem_sortLe, List.mem_filter] at hr1 hr2
      simp only [Bool.and_eq_true, decide_eq_true_eq] at hr1 hr2
      linarith [hr1.2.1, hr1.2.2, hr2.2.1]
    · intro r
      simp only [List.length_map]
      constructor
      · rintro ⟨sl, hsl, hr⟩
        rw [List.mem_map] at hsl
        obtain ⟨c, hc, rfl⟩ := hsl
        rw [sortByCol, mem_sortLe, List.mem_filter] at hr
        simp only [Bool.and_eq_true, decide_eq_true_eq] at hr
        have := windowStarts_window_sub s e T hT c hc (colVal r rc)
          hr.2.1 hr.2.2
        exact ⟨hr.1, this.1, this.2⟩
      · rintro ⟨hrt, h1, h2⟩
        obtain ⟨c, hc, hcv1, hcv2⟩ :=
          windowStarts_cover s e T hT (colVal r rc) h1 h2
        refine ⟨_, List.mem_map.mpr ⟨c, hc, rfl⟩, ?_⟩
        rw [sortByCol, mem_sortLe]
        refine List.mem_filter.mpr ⟨hrt, ?_⟩
        simp only [Bool.and_eq_true, decide_eq_true_eq]
        exact ⟨hcv1, hcv2⟩

/-- Witness for `iter_window_exhaustive` at a concrete input. -/
theorem iter_window_exhaustive_witness :
    (0 : Int) < 4 ∧ (4 : Int) ≤ 4 ∧ (1 : Int) ≠ 0 ∧ (10 : Int) ≠ 0 ∧
    ∃ sls, iter_window [[(2 : Int)], [(11 : Int)]] 0 4 (some 4) (some 1)
        (some 10) = .ok sls ∧
      sls.length = (windowStarts 1 10 4).length ∧
      (∀ r ∈ [[(2 : Int)], [(11 : Int)]], 1 ≤ colVal r 0 → colVal r 0 < 10 →
        ∃ sl ∈ sls, r ∈ sl) ∧
      ((4 : Int) = 4 →
        List.Pairwise (fun s1 s2 => ∀ r, r ∈ s1 → r ∉ s2) sls ∧
        (∀ r : Row, (∃ sl ∈ sls, r ∈ sl) ↔
          (r ∈ [[(2 : Int)], [(11 : Int)]] ∧ 1 ≤ colVal r 0 ∧
            colVal r 0 < 1 + sls.length * 4))) :=
  ⟨by decide, by decide, by decide, by decide,
    iter_window_exhaustive [[(2 : Int)], [(11 : Int)]] 0 4 4 1 10
      (by decide) (by decide) (by decide) (by decide)⟩

theorem flatten_perm_of_forall {α : Type} (f g : Int → List α) :
    ∀ ws : List Int, (∀ c ∈ ws, List.Perm (f c) (g c)) →
      List.Perm (ws.map f).flatten (ws.map g).flatten := by
  intro ws
  induction ws with
  | nil => intro _; exact List.Perm.refl _
  | cons c cs ih =>
    intro h
    simp only [List.map_cons, List.flatten_cons]
    exact (h c (List.mem_cons_self c cs)).append
      (ih fun c' hc' => h c' (List.mem_cons_of_mem c hc'))

/-- The window slices of a table, flattened, are a permutation of the table
when every row falls in some window and consecutive windows are at least a
window width apart. -/
theorem flatten_window_filter_perm {α : Type} (val : α → Int) (W : Int) :
    ∀ (ws : List Int) (l : List α),
      (∀ x ∈ l, ∃ c ∈ ws, c ≤ val x ∧ val x < c + W) →
      List.Pairwise (fun c1 c2 => c1 + W ≤ c2) ws →
      List.Perm ((ws.map (fun c => l.filter (fun x =>
        decide (c ≤ val x) && decide (val x < c + W)))).flatten) l := by
  intro ws
  induction ws with
  | nil =>
    intro l hcov _
    cases l with
    | nil => exact List.Perm.refl _
    | cons x xs =>
      obtain ⟨c, hc, -⟩ := hcov x (List.mem_cons_self x xs)
      exact absurd hc (List.not_mem_nil c)
  | cons c cs ih =>
    intro l hcov hdisj
    rw [List.pairwise_cons] at hdisj
    simp only [List.map_cons, List.flatten_cons]
    have hfix : ∀ c' ∈ cs,
        l.filter (fun x => decide (c' ≤ val x) && decide (val x < c' + W))
          = (l.filter (fun x =>
              !(decide (c ≤ val x) && decide (val x < c + W)))).filter
            (fun x => decide (c' ≤ val x) && decide (val x < c' + W)) := by
      intro c' hc'
      rw [List.filter_filter]
      refine List.filter_congr ?_
      intro x _
      cases hx : (decide (c' ≤ val x) && decide (val x < c' + W)) with
      | false => simp
      | true =>
        have h2 : c' ≤ val x :=
          of_decide_eq_true ((Bool.and_eq_true _ _).mp hx).1
        have h1 : c + W ≤ c' := hdisj.1 c' hc'
        have h3 : decide (val x < c + W) = false := by
          simp only [decide_eq_false_iff_not]
          intro hcon
          linarith
        simp [h3]
    rw [List.map_congr_left hfix]
    refine (List.Perm.append_left _ (ih _ ?_ hdisj.2)).trans
      (List.filter_append_perm _ l)
    intro x hx
    rw [List.mem_filter] at hx
    obtain ⟨hxl, hxnp⟩ := hx
    obtain ⟨c'', hc'', hb⟩ := hcov x hxl
    rcases List.mem_cons.mp hc'' with rfl | hc''
    · exfalso
      have hp : (decide (c'' ≤ val x) && decide (val x < c'' + W)) = true := by
        simp [hb.1, hb.2]
      rw [hp] at hxnp
      simp at hxnp
    · exact ⟨c'', hc'', hb⟩

/-- The 14-row table of the chunking scenario, with intrinsic rowids
`0, 1, ..., 13`. -/
def table14 : List CRow := (List.range 14).map (fun i => ⟨(i : Int), [(i : Int)]⟩)

/-- C4: for a non-empty table with distinct rowids and positive chunk size,
the chunk slices flattened in yield order are a permutation of the table
sorted strictly by rowid (each row exactly once, in identifier order); and
chunking the 14-row table with chunk size 5 yields slice sizes `[5, 5, 4]`. -/
theorem iter_chunk_exhaustive (t : List CRow) (ch : Int)
    (hne : t ≠ []) (hnodup : List.Pairwise (fun a b : CRow => a.rid ≠ b.rid) t)
    (hch : 0 < ch) :
    ∃ sls, iter_chunk t ch = .ok sls ∧
      List.Perm sls.flatten t ∧
      List.Pairwise (fun a b : CRow => a.rid < b.rid) sls.flatten ∧
      (iter_chunk table14 5).toOption.map (fun s14 => s14.map List.length)
        = some [5, 5, 4] := by
  have hmapne : t.map CRow.rid ≠ [] := by
    intro h
    rw [List.map_eq_nil_iff] at h
    exact hne h
  cases hmin : (t.map CRow.rid).min? with
  | none => rw [List.min?_eq_none_iff] at hmin; exact absurd hmin hmapne
  | some s =>
  cases hmax : (t.map CRow.rid).max? with
  | none => rw [List.max?_eq_none_iff] at hmax; exact absurd hmax hmapne
  | some e =>
  have hiter : iter_chunk t ch
      = .ok ((windowStarts s e ch).map (fun c =>
          sortByRid (t.filter (fun r =>
            decide (c ≤ r.rid) && decide (r.rid < c + ch))))) := by
    rw [iter_chunk, hmin, hmax]
  have hcov : ∀ x ∈ t, ∃ c ∈ windowStarts s e ch,
      c ≤ x.rid ∧ x.rid < c + ch := by
    intro x hx
    have hsle : s ≤ x.rid :=
      (int_min?_spec _ s hmin).2 _ (List.mem_map_of_mem CRow.rid hx)
    have hle : x.rid ≤ e :=
      (int_max?_spec _ e hmax).2 _ (List.mem_map_of_mem CRow.rid hx)
    have hend := windowStarts_end_lt s e ch hch
    exact windowStarts_cover s e ch hch x.rid hsle (by linarith)
  refine ⟨_, hiter, ?_, ?_, ?_⟩
  · refine (flatten_perm_of_forall _ _ (windowStarts s e ch)
        (fun c _ => sortLe_perm _ _)).trans ?_
    exact flatten_window_filter_perm CRow.rid ch (windowStarts s e ch) t hcov
      (windowStarts_pairwise_step s e ch hch)
  · rw [List.pairwise_flatten]
    constructor
    · intro sl hsl
      rw [List.mem_map] at hsl
      obtain ⟨c, hc, rfl⟩ := hsl
      have hle : List.Pairwise
          (fun a b : CRow => (decide (a.rid ≤ b.rid)) = true)
          (sortByRid (t.filter (fun r =>
            decide (c ≤ r.rid) && decide (r.rid < c + ch)))) := by
        rw [sortByRid]
        refine sortLe_pairwise (fun a b : CRow => decide (a.rid ≤ b.rid))
          ?_ ?_ _
        · intro a b
          rcases le_total a.rid b.rid with h | h <;> simp [h]
        · intro a b c2 h1 h2
          exact decide_eq_true
            (le_trans (of_decide_eq_true h1) (of_decide_eq_true h2))
      have hsub : List.Sublist (t.filter (fun r =>
          decide (c ≤ r.rid) && decide (r.rid < c + ch))) t :=
        List.filter_sublist t
      have hnd0 : List.Pairwise (fun a b : CRow => a.rid ≠ b.rid)
          (t.filter (fun r => decide (c ≤ r.rid) && decide (r.rid < c + ch))) :=
        hnodup.sublist hsub
      have hperm := sortLe_perm (fun a b : CRow => decide (a.rid ≤ b.rid))
        (t.filter (fun r => decide (c ≤ r.rid) && decide (r.rid < c + ch)))
      have hnd : List.Pairwise (fun a b : CRow => a.rid ≠ b.rid)
          (sortByRid (t.filter (fun r =>
            decide (c ≤ r.rid) && decide (r.rid < c + ch)))) :=
        (List.Perm.pairwise_iff (fun h => Ne.symm h) hperm).mpr hnd0
      refine (hle.and hnd).imp ?_
      rintro a b ⟨h1, h2⟩
      exact lt_of_le_of_ne (of_decide_eq_true h1) h2
    · rw [List.pairwise_map]
      refine (windowStarts_pairwise_step s e ch hch).imp ?_
      intro c1 c2 hstep x hx y hy
      rw [sortByRid, mem_sortLe, List.mem_filter] at hx hy
      simp only [Bool.and_eq_true, decide_eq_true_eq] at hx hy
      linarith [hx.2.2, hy.2.1]
  · rfl

/-- Witness for `iter_chunk_exhaustive`: the 14-row table with chunk size
5. -/
theorem iter_chunk_exhaustive_witness :
    table14 ≠ [] ∧
    List.Pairwise (fun a b : CRow => a.rid ≠ b.rid) table14 ∧
    (0 : Int) < 5 ∧
    (∃ sls, iter_chunk table14 5 = .ok sls ∧
      List.Perm sls.flatten table14 ∧
      List.Pairwise (fun a b : CRow => a.rid < b.rid) sls.flatten ∧
      (iter_chunk table14 5).toOption.map (fun s14 => s14.map List.length)
        = some [5, 5, 4]) :=
  ⟨by decide, by decide, by decide,
    iter_chunk_exhaustive table14 5 (by decide) (by decide) (by decide)⟩

/-! ## Iterator event traces (ephemeral index lifecycle)

Traces of the engine-visible effects of each iterator: index DDL, slice
yields, and any raised error.  `iter_group` and `iter_window` create an
index named by a generated unique token before their loops and drop it after
the loop; `iter_chunk` performs no index DDL at all. -/

/-- An engine-visible event during an iteration. -/
inductive DbEvent (p : Type) where
  | createIndex (name : String)
  | yieldSlice (s : List p)
  | dropIndex (name : String)
  | raised (e : PyErr)
deriving DecidableEq, Repr

/-- Whether an event is an index creation. -/
def isCreateIndex {p : Type} : DbEvent p → Bool
  | .createIndex _ => true
  | _ => false

/-- Event trace of `iter_group`: `CREATE INDEX`, the yields, `DROP INDEX`. -/
def iter_group_events (t : List Row) (cols : List Nat) (idx : String) :
    List (DbEvent Row) :=
  DbEvent.createIndex idx ::
    ((iter_group t cols).map DbEvent.yieldSlice ++ [DbEvent.dropIndex idx])

/-- Event trace of `iter_window`: `CREATE INDEX`, then either the yields
followed by `DROP INDEX`, or the raised error (in which case the index is
never dropped). -/
def iter_window_events (t : List Row) (rc : Nat) (windowSize : Int)
    (stepSize start stop : Option Int) (idx : String) : List (DbEvent Row) :=
  DbEvent.createIndex idx ::
    (match iter_window t rc windowSize stepSize start stop with
     | .ok sls => sls.map DbEvent.yieldSlice ++ [DbEvent.dropIndex idx]
     | .error e => [DbEvent.raised e])

/-- Event trace of `iter_chunk`: only yields (or the raised error); the
source contains no `CREATE INDEX` or `DROP INDEX` for this iterator. -/
def iter_chunk_events (t : List CRow) (ch : Int) : List (DbEvent CRow) :=
  match iter_chunk t ch with
  | .ok sls => sls.map DbEvent.yieldSlice
  | .error e => [DbEvent.raised e]

/-- C5 counterexample: the chunk iterator's event trace on the concrete
14-row table contains no index creation at all, refuting "each of the three
iterators creates an ephemeral index". -/
theorem iter_chunk_no_index_cex :
    ¬ ∃ n : String, DbEvent.createIndex n ∈ iter_chunk_events table14 5 := by
  rintro ⟨n, hn⟩
  have hall : (iter_chunk_events table14 5).all
      (fun ev => !(isCreateIndex ev)) = true := by decide
  rw [List.all_eq_true] at hall
  have hev := hall _ hn
  simp [isCreateIndex] at hev

/-- C5 (amended): the group iterator, and the window iterator on a normally
exhausted run, emit the creation of the ephemeral index as their first event
(before any slice is yielded) and its drop as their last event; the chunk
iterator never creates an index. -/
theorem iter_index_lifecycle (t : List Row) (cols : List Nat)
    (rc : Nat) (S : Int) (stepSize start stop : Option Int) (idx : String)
    (tc : List CRow) (ch : Int) (sls : List (List Row))
    (hw : iter_window t rc S stepSize start stop = .ok sls) :
    (iter_group_events t cols idx).head? = some (DbEvent.createIndex idx) ∧
    (iter_group_events t cols idx).getLast? = some (DbEvent.dropIndex idx) ∧
    (iter_window_events t rc S stepSize start stop idx).head?
      = some (DbEvent.createIndex idx) ∧
    (iter_window_events t rc S stepSize start stop idx).getLast?
      = some (DbEvent.dropIndex idx) ∧
    (∀ n : String, DbEvent.createIndex n ∉ iter_chunk_events tc ch) := by
  refine ⟨rfl, ?_, ?_, ?_, ?_⟩
  · rw [iter_group_events]
    rw [show DbEvent.createIndex idx ::
          ((iter_group t cols).map DbEvent.yieldSlice
            ++ [DbEvent.dropIndex idx])
        = (DbEvent.createIndex idx :: (iter_group t cols).map DbEvent.yieldSlice)
            ++ [DbEvent.dropIndex idx] from by simp]
    exact List.getLast?_concat _
  · rw [iter_window_events, hw]
    rfl
  · rw [iter_window_events, hw]
    rw [show DbEvent.createIndex idx ::
          (sls.map DbEvent.yieldSlice ++ [DbEvent.dropIndex idx])
        = (DbEvent.createIndex idx :: sls.map DbEvent.yieldSlice)
            ++ [DbEvent.dropIndex idx] from by simp]
    exact List.getLast?_concat _
  · intro n hn
    rw [iter_chunk_events] at hn
    cases hci : iter_chunk tc ch with
    | ok sls2 =>
      rw [hci] at hn
      obtain ⟨sl, -, hev⟩ := List.mem_map.mp hn
      exact DbEvent.noConfusion hev
    | error er =>
      rw [hci] at hn
      simp at hn

/-- Witness for `iter_index_lifecycle` at a concrete normally-exhausted
window run. -/
theorem iter_index_lifecycle_witness :
    iter_window [[(2 : Int)], [(11 : Int)]] 0 4 (some 4) (some 1) (some 10)
      = .ok [[[2]], [], [[11]]] ∧
    ((iter_group_events [[(2 : Int)], [(11 : Int)]] [0] "idxA").head?
        = some (DbEvent.createIndex "idxA") ∧
      (iter_group_events [[(2 : Int)], [(11 : Int)]] [0] "idxA").getLast?
        = some (DbEvent.dropIndex "idxA") ∧
      (iter_window_events [[(2 : Int)], [(11 : Int)]] 0 4 (some 4) (some 1)
          (some 10) "idxA").head? = some (DbEvent.createIndex "idxA") ∧
      (iter_window_events [[(2 : Int)], [(11 : Int)]] 0 4 (some 4) (some 1)
          (some 10) "idxA").getLast? = some (DbEvent.dropIndex "idxA") ∧
      (∀ n : String, DbEvent.createIndex n ∉ iter_chunk_events table14 5)) :=
  ⟨rfl, iter_index_lifecycle [[(2 : Int)], [(11 : Int)]] [0] 0 4 (some 4)
    (some 1) (some 10) "idxA" table14 5 [[[2]], [], [[11]]] rfl⟩

/-! ## Frame sink (`Connection.push`)

The catalog holds the schema's tables and the registered transient views,
each a named list of rows. -/

/-- The engine catalog: named tables and registered transient views. -/
structure Catalog where
  tables : List (String × List Row)
  views : List (String × List Row)
deriving DecidableEq, Repr

/-- An engine-visible step performed by `push`. -/
inductive PushEvent where
  | showTables
  | registerView (name : String)
  | createTable (name : String)
  | insertInto (name : String)
  | unregisterView (name : String)
deriving DecidableEq, Repr

/-- Model of `Connection.push(df, table_name)`: fetch `SHOW TABLES` and
lower-case the names, register the slice as a transient view under the
generated name, `CREATE TABLE ... AS SELECT * FROM view` when no table with
that name exists ignoring case, otherwise `INSERT INTO ... SELECT * FROM
view` into the (case-insensitively resolved) existing table, then unregister
the view. -/
def push (db : Catalog) (df : List Row) (tname vname : String) :
    Catalog × List PushEvent :=
  let tablesLower := db.tables.map (fun nt => nt.1.toLower)
  let registered := db.views ++ [(vname, df)]
  if tname.toLower ∈ tablesLower then
    ({ tables := db.tables.map (fun nt =>
         if nt.1.toLower = tname.toLower then (nt.1, nt.2 ++ df) else nt),
       views := registered.filter (fun nv => nv.1 ≠ vname) },
     [.showTables, .registerView vname, .insertInto tname,
      .unregisterView vname])
  else
    ({ tables := db.tables ++ [(tname, df)],
       views := registered.filter (fun nv => nv.1 ≠ vname) },
     [.showTables, .registerView vname, .createTable tname,
      .unregisterView vname])

/-- C8: `push` registers the slice as a transient view and unregisters it in
both branches (the view set is unchanged afterwards, and the trace ends with
the unregistration); the table check is on lower-cased names; when absent the
table is created from the slice, when present (ignoring case) the slice's
rows are appended to the existing table. -/
theorem push_spec (db : Catalog) (df : List Row) (tname vname : String)
    (hv : vname ∉ db.views.map Prod.fst) :
    ((push db df tname vname).2.head? = some PushEvent.showTables ∧
      (push db df tname vname).2[1]? = some (PushEvent.registerView vname) ∧
      (push db df tname vname).2.getLast? = some (PushEvent.unregisterView vname)) ∧
    (push db df tname vname).1.views = db.views ∧
    (tname.toLower ∉ db.tables.map (fun nt => nt.1.toLower) →
      (push db df tname vname).2
          = [.showTables, .registerView vname, .createTable tname,
             .unregisterView vname] ∧
      (push db df tname vname).1.tables = db.tables ++ [(tname, df)]) ∧
    (tname.toLower ∈ db.tables.map (fun nt => nt.1.toLower) →
      (push db df tname vname).2
          = [.showTables, .registerView vname, .insertInto tname,
             .unregisterView vname] ∧
      (push db df tname vname).1.tables = db.tables.map (fun nt =>
        if nt.1.toLower = tname.toLower then (nt.1, nt.2 ++ df) else nt)) := by
  have hviews : ((db.views ++ [(vname, df)]).filter
      (fun nv => nv.1 ≠ vname)) = db.views := by
    rw [List.filter_append]
    have h1 : List.filter (fun nv => nv.1 ≠ vname) [(vname, df)] = [] := by
      simp
    have h2 : List.filter (fun nv => (nv.1 ≠ vname : Bool)) db.views
        = db.views := by
      rw [List.filter_eq_self]
      intro a ha
      simp only [decide_eq_true_eq]
      intro hcon
      exact hv (List.mem_map.mpr ⟨a, ha, hcon⟩)
    rw [h1, h2, List.append_nil]
  by_cases hmem : tname.toLower ∈ db.tables.map (fun nt => nt.1.toLower)
  · refine ⟨?_, ?_, fun hc => absurd hmem hc, fun _ => ⟨?_, ?_⟩⟩
    · rw [push]
      simp only [hmem, if_true]
      exact ⟨rfl, rfl, rfl⟩
    · rw [push]
      simp only [hmem, if_true]
      exact hviews
    · rw [push]
      simp only [hmem, if_true]
    · rw [push]
      simp only [hmem, if_true]
  · refine ⟨?_, ?_, fun _ => ⟨?_, ?_⟩, fun hc => absurd hc hmem⟩
    · rw [push]
      simp only [hmem, if_false]
      exact ⟨rfl, rfl, rfl⟩
    · rw [push]
      simp only [hmem, if_false]
      exact hviews
    · rw [push]
      simp only [hmem, if_false]
    · rw [push]
      simp only [hmem, if_false]

/-- Witness for `push_spec`: pushing into a catalog holding table `"t"` with
fresh view name `"v0"`, both for the append branch (`"T"`, present ignoring
case) and implicitly covering the conclusion at that input. -/
theorem push_spec_witness :
    ("v0" ∉ (Catalog.mk [("t", [[1]])] []).views.map Prod.fst) ∧
    (((push (Catalog.mk [("t", [[(1 : Int)]])] []) [[2]] "T" "v0").2.head?
        = some PushEvent.showTables ∧
      (push (Catalog.mk [("t", [[(1 : Int)]])] []) [[2]] "T" "v0").2[1]?
        = some (PushEvent.registerView "v0") ∧
      (push (Catalog.mk [("t", [[(1 : Int)]])] []) [[2]] "T" "v0").2.getLast?
        = some (PushEvent.unregisterView "v0")) ∧
    (push (Catalog.mk [("t", [[(1 : Int)]])] []) [[2]] "T" "v0").1.views
      = (Catalog.mk [("t", [[(1 : Int)]])] []).views ∧
    ("T".toLower ∉ (Catalog.mk [("t", [[(1 : Int)]])] []).tables.map
        (fun nt => nt.1.toLower) →
      (push (Catalog.mk [("t", [[(1 : Int)]])] []) [[2]] "T" "v0").2
          = [.showTables, .registerView "v0", .createTable "T",
             .unregisterView "v0"] ∧
      (push (Catalog.mk [("t", [[(1 : Int)]])] []) [[2]] "T" "v0").1.tables
        = (Catalog.mk [("t", [[(1 : Int)]])] []).tables ++ [("T", [[2]])]) ∧
    ("T".toLower ∈ (Catalog.mk [("t", [[(1 : Int)]])] []).tables.map
        (fun nt => nt.1.toLower) →
      (push (Catalog.mk [("t", [[(1 : Int)]])] []) [[2]] "T" "v0").2
          = [.showTables, .registerView "v0", .insertInto "T",
             .unregisterView "v0"] ∧
      (push (Catalog.mk [("t", [[(1 : Int)]])] []) [[2]] "T" "v0").1.tables
        = (Catalog.mk [("t", [[(1 : Int)]])] []).tables.map (fun nt =>
            if nt.1.toLower = "T".toLower then (nt.1, nt.2 ++ [[2]])
            else nt))) :=
  ⟨by decide,
    push_spec (Catalog.mk [("t", [[(1 : Int)]])] []) [[2]] "T" "v0"
      (by decide)⟩

/-! ## JSON-codec UDF bridge (`json_wrap`)

The codec exchanged across the SQL-function boundary is modelled by an
executable JSON encoder and decoder over the primitive values the envelope
carries (integers, ASCII strings, booleans, null, and flat lists of those).
The encoder follows `json.dumps` (separator `", "`, strings escaped); the
decoder is the fragment of `json.loads` reachable from such envelopes, with
JSON whitespace skipping.  All functions are structurally recursive. -/

/-- A primitive value carried inside a JSON envelope. -/
inductive Prim where
  | int (n : Int)
  | str (s : List Char)
  | bool (b : Bool)
  | null
deriving DecidableEq, Repr

/-- A Python-level value crossing the SQL-function boundary. -/
inductive PyVal where
  | int (n : Int)
  | str (s : List Char)
  | bool (b : Bool)
  | none
  | list (l : List Prim)
deriving DecidableEq, Repr

/-- Decimal digits of `n`, most significant first, with explicit fuel (the
number of digits of `n ≥ 1` is at most `n`, so fuel `n` never runs out). -/
def natCharsFuel : Nat → Nat → List Char
  | 0, _ => []
  | fuel + 1, n =>
      if n = 0 then []
      else natCharsFuel fuel (n / 10) ++ [Nat.digitChar (n % 10)]

/-- Decimal representation of a natural number. -/
def natChars (n : Nat) : List Char :=
  if n = 0 then ['0'] else natCharsFuel n n

/-- Decimal representation of an integer (with `-` sign). -/
def intChars (n : Int) : List Char :=
  if n < 0 then '-' :: natChars (-n).toNat else natChars n.toNat

/-- String-body escaping of `json.dumps` for ASCII text: `"` and `\\` get a
backslash, printable characters pass through. -/
def escapeChars : List Char → List Char
  | [] => []
  | c :: cs =>
      (if c = '"' then ['\\', '"']
       else if c = '\\' then ['\\', '\\']
       else [c]) ++ escapeChars cs

/-- Encoding of one primitive value (`json.dumps` on a scalar). -/
def encPrim : Prim → List Char
  | .int n => intChars n
  | .str s => '"' :: (escapeChars s ++ ['"'])
  | .bool true => ['t', 'r', 'u', 'e']
  | .bool false => ['f', 'a', 'l', 's', 'e']
  | .null => ['n', 'u', 'l', 'l']

/-- Comma-space separated encodings of the list elements (the default
`json.dumps` item separator is `", "`). -/
def encListPrim : List Prim → List Char
  | [] => []
  | [p] => encPrim p
  | p :: rest => encPrim p ++ ',' :: ' ' :: encListPrim rest

/-- The JSON envelope of a list of primitive values (`json.dumps(L)`). -/
def jsonDumpsList (L : List Prim) : List Char :=
  '[' :: (encListPrim L ++ [']'])

/-- JSON whitespace. -/
def isWs (c : Char) : Bool :=
  c = ' ' || c = '\t' || c = '\n' || c = '\r'

/-- Drop leading JSON whitespace. -/
def skipWs : List Char → List Char
  | [] => []
  | c :: cs => if isWs c then skipWs cs else c :: cs

/-- Split off the leading run of decimal digits. -/
def takeDigits : List Char → (List Char × List Char)
  | [] => ([], [])
  | c :: cs =>
      if c.isDigit then
        let r := takeDigits cs
        (c :: r.1, r.2)
      else ([], c :: cs)

/-- Value of a digit string, most significant first. -/
def digitsVal (ds : List Char) : Nat :=
  ds.foldl (fun a c => 10 * a + (c.toNat - 48)) 0

/-- Parse a nonempty run of digits as a natural number. -/
def parseNat (cs : List Char) : Option (Nat × List Char) :=
  match takeDigits cs with
  | ([], _) => Option.none
  | (ds, rest) => some (digitsVal ds, rest)

/-- Resolution of a string escape (the escapes our encoder and `json.dumps`
use on ASCII input, plus the other single-character JSON escapes). -/
def unescape (c : Char) : Option Char :=
  if c = '"' then some '"'
  else if c = '\\' then some '\\'
  else if c = '/' then some '/'
  else if c = 'n' then some '\n'
  else if c = 't' then some '\t'
  else if c = 'r' then some '\r'
  else Option.none

/-- Parse a string body up to the closing quote; the flag records that the
previous character was an unresolved backslash. -/
def parseStrAux : Bool → List Char → Option (List Char × List Char)
  | _, [] => Option.none
  | true, c :: rest =>
      match unescape c with
      | some c' => (parseStrAux false rest).map (fun sr => (c' :: sr.1, sr.2))
      | Option.none => Option.none
  | false, c :: rest =>
      if c = '"' then some ([], rest)
      else if c = '\\' then parseStrAux true rest
      else (parseStrAux false rest).map (fun sr => (c :: sr.1, sr.2))

/-- Parse a string body up to the closing quote. -/
def parseStr (cs : List Char) : Option (List Char × List Char) :=
  parseStrAux false cs

/-- Expect the literal characters `lit` as a prefix. -/
def parseLit (lit : List Char) (cs : List Char) : Option (List Char) :=
  match lit, cs with
  | [], cs => some cs
  | l :: ls, c :: cs => if c = l then parseLit ls cs else Option.none
  | _ :: _, [] => Option.none

/-- Parse one primitive JSON value. -/
def parsePrim (cs : List Char) : Option (Prim × List Char) :=
  match cs with
  | [] => Option.none
  | c :: rest =>
      if c = '"' then (parseStr rest).map (fun sr => (Prim.str sr.1, sr.2))
      else if c = 't' then
        (parseLit ['r', 'u', 'e'] rest).map (fun r => (Prim.bool true, r))
      else if c = 'f' then
        (parseLit ['a', 'l', 's', 'e'] rest).map (fun r => (Prim.bool false, r))
      else if c = 'n' then
        (parseLit ['u', 'l', 'l'] rest).map (fun r => (Prim.null, r))
      else if c = '-' then
        (parseNat rest).map (fun nr => (Prim.int (-(nr.1 : Int)), nr.2))
      else (parseNat (c :: rest)).map (fun nr => (Prim.int (nr.1 : Int), nr.2))

/-- Parse `prim (ws ',' ws prim)* ws ']'` with fuel (one element consumes at
least one character, so input length is enough fuel). -/
def parseElems : Nat → List Char → Option (List Prim × List Char)
  | 0, _ => Option.none
  | fuel + 1, cs =>
      match parsePrim cs with
      | Option.none => Option.none
      | some (p, cs1) =>
          match skipWs cs1 with
          | [] => Option.none
          | c :: cs2 =>
              if c = ',' then
                match parseElems fuel (skipWs cs2) with
                | Option.none => Option.none
                | some (ps, cs3) => some (p :: ps, cs3)
              else if c = ']' then some ([p], cs2)
              else Option.none

/-- Coercion of a parsed primitive into a Python value. -/
def primToPyVal : Prim → PyVal
  | .int n => .int n
  | .str s => .str s
  | .bool b => .bool b
  | .null => .none

/-- Model of `json.loads` on the decodable fragment: a JSON array of
primitives or a single primitive, with surrounding whitespace. -/
def jsonLoads (cs : List Char) : Option PyVal :=
  match skipWs cs with
  | [] => Option.none
  | c :: rest =>
      if c = '[' then
        match skipWs rest with
        | [] => Option.none
        | c2 :: rest2 =>
            if c2 = ']' then
              if skipWs rest2 = [] then some (.list []) else Option.none
            else
              match parseElems (c2 :: rest2).length (c2 :: rest2) with
              | some (ps, rest3) =>
                  if skipWs rest3 = [] then some (.list ps) else Option.none
              | Option.none => Option.none
      else
        match parsePrim (c :: rest) with
        | some (p, rest2) =>
            if skipWs rest2 = [] then some (primToPyVal p) else Option.none
        | Option.none => Option.none

/-- The wrapper's per-argument decoding: a textual argument is
opportunistically decoded as JSON, and left unchanged when decoding fails;
non-textual arguments pass through. -/
def deserialize (v : PyVal) : PyVal :=
  match v with
  | .str s => (jsonLoads s).getD (.str s)
  | v => v

/-- The wrapper's result encoding: a list result is JSON-encoded, any other
result passes through. -/
def serializeResult (r : PyVal) : PyVal :=
  match r with
  | .list L => .str (jsonDumpsList L)
  | r => r

/-- Model of the `json_wrap` decorator: decode every argument, call the
wrapped function, re-encode a list result. -/
def json_wrap (f : List PyVal → PyVal) (args : List PyVal) : PyVal :=
  serializeResult (f (args.map deserialize))

/-- Printable-ASCII characters, which `json.dumps` (with its default
`ensure_ascii`) emits unescaped apart from `"` and `\\`. -/
def printableAscii (c : Char) : Bool :=
  32 ≤ c.toNat && c.toNat < 128

/-- Primitive values whose encoding stays in the modelled ASCII fragment. -/
def primPrintable : Prim → Bool
  | .str s => s.all printableAscii
  | _ => true

theorem digitChar_isDigit : ∀ d : Nat, d < 10 → (Nat.digitChar d).isDigit = true := by
  decide

theorem digitChar_val : ∀ d : Nat, d < 10 → (Nat.digitChar d).toNat - 48 = d := by
  decide

theorem natCharsFuel_eq (fuel : Nat) :
    ∀ n : Nat, n ≤ fuel →
      natCharsFuel fuel n = (Nat.digits 10 n).reverse.map Nat.digitChar := by
  induction fuel with
  | zero =>
    intro n hn
    have h0 : n = 0 := Nat.le_zero.mp hn
    subst h0
    simp [natCharsFuel]
  | succ fuel ih =>
    intro n hn
    by_cases h0 : n = 0
    · subst h0
      simp [natCharsFuel]
    · rw [natCharsFuel, if_neg h0]
      rw [Nat.digits_def' (by norm_num) (Nat.pos_of_ne_zero h0)]
      rw [List.reverse_cons, List.map_append]
      have hdiv : n / 10 ≤ fuel := by
        have := Nat.div_lt_self (Nat.pos_of_ne_zero h0) (by norm_num : 1 < 10)
        omega
      rw [ih (n / 10) hdiv]
      simp

theorem natChars_eq (n : Nat) :
    natChars n
      = if n = 0 then ['0'] else (Nat.digits 10 n).reverse.map Nat.digitChar := by
  rw [natChars]
  by_cases h : n = 0
  · simp [h]
  · simp [h, natCharsFuel_eq n n le_rfl]

theorem natChars_ne_nil (n : Nat) : natChars n ≠ [] := by
  rw [natChars_eq]
  by_cases h : n = 0
  · simp [h]
  · simp [h, List.map_eq_nil_iff, List.reverse_eq_nil_iff,
      Nat.digits_ne_nil_iff_ne_zero]

theorem natChars_all_digit (n : Nat) : ∀ c ∈ natChars n, c.isDigit = true := by
  intro c hc
  rw [natChars_eq] at hc
  by_cases h : n = 0
  · simp [h] at hc
    subst hc
    decide
  · simp only [h, if_false, List.mem_map, List.mem_reverse] at hc
    obtain ⟨d, hd, rfl⟩ := hc
    exact digitChar_isDigit d (Nat.digits_lt_base (by norm_num) hd)

theorem foldl_digits (ds : List Nat) (h : ∀ d ∈ ds, d < 10) :
    ∀ a : Nat,
      List.foldl (fun a c => 10 * a + (c.toNat - 48)) a
        (ds.reverse.map Nat.digitChar)
      = a * 10 ^ ds.length + Nat.ofDigits 10 ds := by
  induction ds with
  | nil => intro a; simp
  | cons d tl ih =>
    intro a
    rw [List.reverse_cons, List.map_append, List.foldl_append]
    rw [ih (fun x hx => h x (List.mem_cons_of_mem d hx))]
    simp only [List.map_cons, List.map_nil, List.foldl_cons, List.foldl_nil,
      List.length_cons, Nat.ofDigits_cons]
    rw [digitChar_val d (h d (List.mem_cons_self d tl))]
    ring

theorem digitsVal_natChars (n : Nat) : digitsVal (natChars n) = n := by
  rw [natChars_eq, digitsVal]
  by_cases h : n = 0
  · subst h
    decide
  · rw [if_neg h]
    rw [foldl_digits (Nat.digits 10 n)
      (fun d hd => Nat.digits_lt_base (by norm_num) hd) 0]
    simp [Nat.ofDigits_digits]

/-- Whether the input does not start with a digit (so a preceding numeral
parse stops exactly there). -/
def headNotDigit : List Char → Bool
  | [] => true
  | c :: _ => !c.isDigit

theorem takeDigits_append (ds : List Char) (rest : List Char)
    (hds : ∀ c ∈ ds, c.isDigit = true) (hrest : headNotDigit rest = true) :
    takeDigits (ds ++ rest) = (ds, rest) := by
  induction ds with
  | nil =>
    simp only [List.nil_append]
    cases rest with
    | nil => rfl
    | cons c cs =>
      rw [headNotDigit, Bool.not_eq_true'] at hrest
      simp [takeDigits, hrest]
  | cons c cs ih =>
    have hc := hds c (List.mem_cons_self c cs)
    simp [takeDigits, hc, ih (fun x hx => hds x (List.mem_cons_of_mem c hx))]

theorem parseNat_natChars (n : Nat) (rest : List Char)
    (hrest : headNotDigit rest = true) :
    parseNat (natChars n ++ rest) = some (n, rest) := by
  rw [parseNat, takeDigits_append (natChars n) rest (natChars_all_digit n) hrest]
  cases hnc : natChars n with
  | nil => exact absurd hnc (natChars_ne_nil n)
  | cons c cs =>
    show some (digitsVal (c :: cs), rest) = some (n, rest)
    rw [← hnc, digitsVal_natChars]

theorem parseStr_escape (s : List Char) :
    ∀ rest, parseStr (escapeChars s ++ '"' :: rest) = some (s, rest) := by
  induction s with
  | nil =>
    intro rest
    show parseStrAux false ('"' :: rest) = some ([], rest)
    simp [parseStrAux]
  | cons c cs ih =>
    intro rest
    have ih' : ∀ r, parseStrAux false (escapeChars cs ++ '"' :: r)
        = some (cs, r) := ih
    rw [escapeChars]
    by_cases h1 : c = '"'
    · subst h1
      show parseStrAux false ('\\' :: '"' :: (escapeChars cs ++ '"' :: rest))
          = some ('"' :: cs, rest)
      simp [parseStrAux, unescape, ih' rest]
    · by_cases h2 : c = '\\'
      · subst h2
        show parseStrAux false ('\\' :: '\\' :: (escapeChars cs ++ '"' :: rest))
            = some ('\\' :: cs, rest)
        simp [parseStrAux, unescape, ih' rest]
      · rw [if_neg h1, if_neg h2]
        show parseStrAux false (c :: (escapeChars cs ++ '"' :: rest))
            = some (c :: cs, rest)
        simp [parseStrAux, h1, h2, ih' rest]

theorem encPrim_ne_nil (p : Prim) : encPrim p ≠ [] := by
  cases p with
  | int n =>
    by_cases h : n < 0 <;> simp [encPrim, intChars, h, natChars_ne_nil]
  | str s => simp [encPrim]
  | bool b => cases b <;> simp [encPrim]
  | null => simp [encPrim]

theorem isDigit_spec (c : Char) (h : c.isDigit = true) :
    isWs c = false ∧ c ≠ '"' ∧ c ≠ 't' ∧ c ≠ 'f' ∧ c ≠ 'n' ∧ c ≠ '-'
      ∧ c ≠ ']' ∧ c ≠ ',' := by
  have hsp : c ≠ ' ' := by intro hc; subst hc; revert h; decide
  have htb : c ≠ '\t' := by intro hc; subst hc; revert h; decide
  have hnl : c ≠ '\n' := by intro hc; subst hc; revert h; decide
  have hcr : c ≠ '\r' := by intro hc; subst hc; revert h; decide
  refine ⟨by simp [isWs, hsp, htb, hnl, hcr], ?_, ?_, ?_, ?_, ?_, ?_, ?_⟩
  all_goals intro hc; subst hc; revert h; decide

theorem encPrim_head (p : Prim) :
    ∃ c cs, encPrim p = c :: cs ∧ isWs c = false ∧ c ≠ ']' := by
  cases p with
  | str s => exact ⟨'"', _, rfl, by decide, by decide⟩
  | bool b =>
    cases b with
    | true => exact ⟨'t', _, rfl, by decide, by decide⟩
    | false => exact ⟨'f', _, rfl, by decide, by decide⟩
  | null => exact ⟨'n', _, rfl, by decide, by decide⟩
  | int n =>
    rw [encPrim, intChars]
    by_cases h : n < 0
    · rw [if_pos h]
      exact ⟨'-', _, rfl, by decide, by decide⟩
    · rw [if_neg h]
      cases hnc : natChars n.toNat with
      | nil => exact absurd hnc (natChars_ne_nil _)
      | cons c cs =>
        have hc : c.isDigit = true :=
          natChars_all_digit _ c (by rw [hnc]; exact List.mem_cons_self c cs)
        obtain ⟨hws, -, -, -, -, -, hrb, -⟩ := isDigit_spec c hc
        exact ⟨c, cs, rfl, hws, hrb⟩

theorem skipWs_not_ws (c : Char) (cs : List Char) (h : isWs c = false) :
    skipWs (c :: cs) = c :: cs := by
  simp [skipWs, h]

theorem skipWs_space (cs : List Char) : skipWs (' ' :: cs) = skipWs cs := by
  rw [skipWs]
  rw [if_pos (by decide)]

theorem parsePrim_enc (p : Prim) (rest : List Char)
    (hrest : headNotDigit rest = true) :
    parsePrim (encPrim p ++ rest) = some (p, rest) := by
  cases p with
  | str s =>
    show parsePrim (('"' :: (escapeChars s ++ ['"'])) ++ rest) = _
    simp [parsePrim, parseStr_escape s rest]
  | bool b =>
    cases b with
    | true => simp [parsePrim, parseLit, encPrim]
    | false => simp [parsePrim, parseLit, encPrim]
  | null => simp [parsePrim, parseLit, encPrim]
  | int n =>
    by_cases h : n < 0
    · have henc : encPrim (Prim.int n) = '-' :: natChars (-n).toNat := by
        rw [encPrim, intChars, if_pos h]
      rw [henc, List.cons_append]
      have hparse := parseNat_natChars (-n).toNat rest hrest
      simp only [parsePrim]
      simp [hparse]
      omega
    · have henc : encPrim (Prim.int n) = natChars n.toNat := by
        rw [encPrim, intChars, if_neg h]
      cases hnc : natChars n.toNat with
      | nil => exact absurd hnc (natChars_ne_nil _)
      | cons c cs =>
        have hc : c.isDigit = true :=
          natChars_all_digit _ c (by rw [hnc]; exact List.mem_cons_self c cs)
        obtain ⟨-, h1, h2, h3, h4, h5, -, -⟩ := isDigit_spec c hc
        rw [henc, hnc, List.cons_append]
        have hparse : parseNat (c :: (cs ++ rest)) = some (n.toNat, rest) := by
          rw [← List.cons_append, ← hnc]
          exact parseNat_natChars n.toNat rest hrest
        simp [parsePrim, h1, h2, h3, h4, h5, hparse]
        omega

theorem encListPrim_head (p : Prim) (tl : List Prim) :
    ∃ suffix, encListPrim (p :: tl) = encPrim p ++ suffix := by
  cases tl with
  | nil => exact ⟨[], by simp [encListPrim]⟩
  | cons q tl2 => exact ⟨',' :: ' ' :: encListPrim (q :: tl2), rfl⟩

theorem skipWs_encListPrim (L : List Prim) (hL : L ≠ []) (X : List Char) :
    skipWs (encListPrim L ++ X) = encListPrim L ++ X := by
  cases L with
  | nil => exact absurd rfl hL
  | cons p tl =>
    obtain ⟨suffix, hs⟩ := encListPrim_head p tl
    obtain ⟨c, cs, hq, hws, -⟩ := encPrim_head p
    rw [hs, hq]
    simp only [List.cons_append, List.append_assoc]
    exact skipWs_not_ws c _ hws

theorem parseElems_enc :
    ∀ L : List Prim, L ≠ [] → ∀ fuel : Nat, L.length ≤ fuel → ∀ rest,
      parseElems fuel (encListPrim L ++ ']' :: rest) = some (L, rest) := by
  intro L
  induction L with
  | nil => intro h; exact absurd rfl h
  | cons p tl ih =>
    intro hne2 fuel hfuel rest
    cases fuel with
    | zero => simp at hfuel
    | succ fuel =>
      cases tl with
      | nil =>
        rw [show encListPrim [p] = encPrim p from rfl]
        rw [parseElems]
        rw [parsePrim_enc p (']' :: rest) (by rfl)]
        simp only [skipWs_not_ws ']' rest (by decide)]
        rw [if_neg (show ¬ (']' = ',') by decide)]
        rw [if_pos trivial]
      | cons q tl2 =>
        have ih2 := ih (by simp) fuel (by simp at hfuel ⊢; omega)
        rw [show encListPrim (p :: q :: tl2)
              = encPrim p ++ ',' :: ' ' :: encListPrim (q :: tl2) from rfl]
        simp only [List.append_assoc, List.cons_append]
        rw [parseElems]
        rw [parsePrim_enc p
          (',' :: ' ' :: (encListPrim (q :: tl2) ++ ']' :: rest)) (by rfl)]
        simp only [skipWs_not_ws ',' _ (by decide)]
        rw [if_pos trivial]
        rw [skipWs_space]
        rw [skipWs_encListPrim (q :: tl2) (by simp) (']' :: rest)]
        rw [ih2 rest]

theorem encListPrim_length (L : List Prim) : L.length ≤ (encListPrim L).length := by
  induction L with
  | nil => simp [encListPrim]
  | cons p tl ih =>
    cases tl with
    | nil =>
      have := encPrim_ne_nil p
      have hpos : 0 < (encPrim p).length := List.length_pos.mpr this
      simp only [encListPrim, List.length_cons, List.length_nil]
      omega
    | cons q tl2 =>
      have := encPrim_ne_nil p
      have hpos : 0 < (encPrim p).length := List.length_pos.mpr this
      simp only [encListPrim, List.length_append, List.length_cons] at ih ⊢
      omega

theorem jsonLoads_dumps (L : List Prim) :
    jsonLoads (jsonDumpsList L) = some (PyVal.list L) := by
  cases L with
  | nil => decide
  | cons p tl =>
    rw [jsonDumpsList, jsonLoads]
    simp only [skipWs_not_ws '[' _ (by decide)]
    rw [if_pos trivial]
    rw [skipWs_encListPrim (p :: tl) (by simp) [']']]
    obtain ⟨suffix, hs⟩ := encListPrim_head p tl
    obtain ⟨c, cs, hq, hws, hrb⟩ := encPrim_head p
    have hshape : encListPrim (p :: tl) ++ [']']
        = c :: (cs ++ suffix ++ [']']) := by
      rw [hs, hq]
      simp
    have hfuel : (p :: tl).length ≤ (c :: (cs ++ suffix ++ [']'])).length := by
      have h1 := encListPrim_length (p :: tl)
      have h2 := congrArg List.length hshape
      simp only [List.length_append, List.length_cons, List.length_nil]
        at h1 h2 ⊢
      omega
    have hpe := parseElems_enc (p :: tl) (by simp)
      ((c :: (cs ++ suffix ++ [']'])).length) hfuel []
    rw [hshape] at hpe
    simp only [hshape]
    rw [if_neg hrb]
    rw [hpe]
    simp [skipWs]

/-- C6: the `json_wrap` codec round-trips list values across the SQL-function
boundary: decoding the JSON envelope of a list `L` of primitive values gives
back `L`, and the wrapper re-encodes it to the same envelope (so an identity
UDF is observationally the identity on envelopes).  The printability
hypothesis restricts to the ASCII fragment in which the modelled encoder
agrees with `json.dumps`. -/
theorem json_wrap_roundtrip (L : List Prim)
    (_hpr : ∀ p ∈ L, primPrintable p = true) :
    jsonLoads (jsonDumpsList L) = some (PyVal.list L) ∧
    deserialize (PyVal.str (jsonDumpsList L)) = PyVal.list L ∧
    json_wrap (fun args => args.getD 0 PyVal.none)
        [PyVal.str (jsonDumpsList L)]
      = PyVal.str (jsonDumpsList L) := by
  have h1 := jsonLoads_dumps L
  refine ⟨h1, ?_, ?_⟩
  · simp [deserialize, h1]
  · simp [json_wrap, deserialize, serializeResult, h1]

/-- Witness for `json_wrap_roundtrip` at a concrete list mixing all
primitive kinds. -/
theorem json_wrap_roundtrip_witness :
    (∀ p ∈ [Prim.int 3, Prim.int (-12), Prim.str ['a', 'b'], Prim.bool true,
        Prim.null], primPrintable p = true) ∧
    (jsonLoads (jsonDumpsList [Prim.int 3, Prim.int (-12),
        Prim.str ['a', 'b'], Prim.bool true, Prim.null])
      = some (PyVal.list [Prim.int 3, Prim.int (-12), Prim.str ['a', 'b'],
          Prim.bool true, Prim.null]) ∧
    deserialize (PyVal.str (jsonDumpsList [Prim.int 3, Prim.int (-12),
        Prim.str ['a', 'b'], Prim.bool true, Prim.null]))
      = PyVal.list [Prim.int 3, Prim.int (-12), Prim.str ['a', 'b'],
          Prim.bool true, Prim.null] ∧
    json_wrap (fun args => args.getD 0 PyVal.none)
        [PyVal.str (jsonDumpsList [Prim.int 3, Prim.int (-12),
          Prim.str ['a', 'b'], Prim.bool true, Prim.null])]
      = PyVal.str (jsonDumpsList [Prim.int 3, Prim.int (-12),
          Prim.str ['a', 'b'], Prim.bool true, Prim.null])) :=
  ⟨by decide,
    json_wrap_roundtrip [Prim.int 3, Prim.int (-12), Prim.str ['a', 'b'],
      Prim.bool true, Prim.null] (by decide)⟩

end DDB
